import Mathlib

/-!
Shallow embedding of the Core Wars MARS virtual machine from
`src/corewars/mars.py`.

Python instructions are mutable objects referenced from the core array
(and from each warrior's `program` list).  The embedding therefore keeps
an explicit object store (`heap : List Instruction`, indexed by object
id); `core` is a list of object ids, and a warrior's `program` is a list
of object ids.  Only the `b_value` field of an instruction object is
ever mutated (the Python code mutates nothing else), so reads of the
immutable fields (`opcode`, modes, `a_value`) may be taken from any
point of an execution step, while `b_value` reads are taken from the
current store, exactly in the order the Python code performs them.
-/

inductive AddressMode where
  | IMMEDIATE
  | DIRECT
  | INDIRECT
  | PREDECREMENT
  | POSTINCREMENT
deriving DecidableEq, Repr

inductive Opcode where
  | DAT | MOV | ADD | SUB | MUL | DIV | MOD | JMP
  | JMZ | JMN | DJN | CMP | SEQ | SNE | SLT | SPL | NOP
deriving DecidableEq, Repr

structure Instruction where
  opcode : Opcode
  a_mode : AddressMode
  a_value : Int
  b_mode : AddressMode
  b_value : Int
deriving DecidableEq, Repr

/-- The sentinel `DAT #0, #0` that initially fills the core. -/
def initialDat : Instruction :=
  ⟨Opcode.DAT, AddressMode.IMMEDIATE, 0, AddressMode.IMMEDIATE, 0⟩

instance : Inhabited Instruction := ⟨initialDat⟩

/-- A warrior: `program` and the core hold object ids into the store. -/
structure Warrior where
  name : String
  author : String
  program : List Nat
  processes : List Nat
  start_address : Nat
deriving DecidableEq, Repr

instance : Inhabited Warrior := ⟨⟨"", "", [], [], 0⟩⟩

structure MARS where
  core_size : Nat
  max_cycles : Nat
  max_processes : Nat
  max_length : Nat
  heap : List Instruction
  core : List Nat
  warriors : List Warrior
  cycle : Nat
  winner : Option Nat
deriving DecidableEq, Repr

/-- `MARS.__init__`: each core cell is a fresh `DAT #0, #0` object. -/
def MARS.init (core_size max_cycles max_processes max_length : Nat) : MARS :=
  { core_size := core_size
    max_cycles := max_cycles
    max_processes := max_processes
    max_length := max_length
    heap := List.replicate core_size initialDat
    core := List.range core_size
    warriors := []
    cycle := 0
    winner := none }

/-- The instruction object currently stored in core cell `addr`. -/
def MARS.instAt (s : MARS) (addr : Nat) : Instruction :=
  s.heap.getD (s.core.getD addr 0) initialDat

/-- In-place mutation of `self.core[addr].b_value` (a store update on
the object the cell points at, visible through every alias). -/
def MARS.modifyB (s : MARS) (addr : Nat) (f : Int → Int) : MARS :=
  let id := s.core.getD addr 0
  let inst := s.heap.getD id initialDat
  { s with heap := s.heap.set id { inst with b_value := f inst.b_value } }

def MARS.setProcesses (s : MARS) (i : Nat) (ps : List Nat) : MARS :=
  { s with warriors :=
      s.warriors.set i { s.warriors.getD i default with processes := ps } }

/-- `normalize`: `address % self.core_size` (Python `%`, non-negative
for a positive modulus, matches `Int.emod`). -/
def MARS.normalize (s : MARS) (address : Int) : Nat :=
  (address % (s.core_size : Int)).toNat

/-- The loop `for i, instruction in enumerate(...): core[(address + i) %% core_size] = ...`,
copying object ids into the core. -/
def copyProgram (core : List Nat) (core_size address : Nat) : List Nat → List Nat
  | [] => core
  | id :: rest => copyProgram (core.set (address % core_size) id) core_size (address + 1) rest

/-- `load_warrior` with an explicit address (the `address is None` random
placement path is not modelled; no claim depends on it).  The warrior's
program instructions are fresh objects appended to the store; the core
cells are made to reference those very objects (Python copies references,
not values). -/
def loadWarrior (s : MARS) (name author : String) (program : List Instruction) (address : Nat) : MARS :=
  let ids := (List.range program.length).map (fun i => s.heap.length + i)
  let w : Warrior :=
    { name := name, author := author, program := ids
      processes := [address], start_address := address }
  { s with
      heap := s.heap ++ program
      core := copyProgram s.core s.core_size address ids
      warriors := s.warriors ++ [w] }

/-- `resolve_address`: returns the updated machine (pre/post inc-dec
mutate the pointer cell's object) and the resolved index. -/
def MARS.resolveAddress (s : MARS) (base : Nat) (mode : AddressMode) (value : Int) : MARS × Nat :=
  match mode with
  | AddressMode.IMMEDIATE => (s, base)
  | AddressMode.DIRECT => (s, s.normalize ((base : Int) + value))
  | AddressMode.INDIRECT =>
      let pointer_addr := s.normalize ((base : Int) + value)
      let pointer := s.instAt pointer_addr
      (s, s.normalize ((pointer_addr : Int) + pointer.b_value))
  | AddressMode.PREDECREMENT =>
      let pointer_addr := s.normalize ((base : Int) + value)
      let s1 := s.modifyB pointer_addr (fun b => b - 1)
      (s1, s1.normalize ((pointer_addr : Int) + (s1.instAt pointer_addr).b_value))
  | AddressMode.POSTINCREMENT =>
      let pointer_addr := s.normalize ((base : Int) + value)
      let result := s.normalize ((pointer_addr : Int) + (s.instAt pointer_addr).b_value)
      (s.modifyB pointer_addr (fun b => b + 1), result)

/-- The state and resolved operands after the two `resolve_address`
calls and the `a_val` / `b_val` reads at the top of
`execute_instruction`. -/
structure ExecCtx where
  st : MARS
  a_addr : Nat
  b_addr : Nat
  a_val : Int
  b_val : Int
deriving Repr

/-- The operand-resolution prefix of `execute_instruction`.  Python's
`inst` is a live reference to the object at `core[pc]`, so its `b_value`
is re-read from the current store at each use site (the A resolution may
have mutated it); `opcode` / modes / `a_value` are never mutated. -/
def execSetup (s : MARS) (pc : Nat) : ExecCtx :=
  let inst := s.instAt pc
  let r1 := s.resolveAddress pc inst.a_mode inst.a_value
  let r2 := r1.1.resolveAddress pc inst.b_mode (r1.1.instAt pc).b_value
  let s2 := r2.1
  let a_val : Int :=
    if inst.a_mode = AddressMode.IMMEDIATE then inst.a_value
    else (s2.instAt r1.2).b_value
  let b_val : Int :=
    if inst.b_mode = AddressMode.IMMEDIATE then (s2.instAt pc).b_value
    else (s2.instAt r2.2).b_value
  ⟨s2, r1.2, r2.2, a_val, b_val⟩

/-- `execute_instruction`: one opcode applied at `pc` on behalf of
warrior `wIdx`; returns the new machine and the successor PCs. -/
def executeInstruction (s : MARS) (wIdx pc : Nat) : MARS × List Nat :=
  let inst := s.instAt pc
  let c := execSetup s pc
  match inst.opcode with
  | Opcode.DAT => (c.st, [])
  | Opcode.MOV =>
      if inst.a_mode = AddressMode.IMMEDIATE then
        (c.st.modifyB c.b_addr (fun _ => inst.a_value), [c.st.normalize ((pc : Int) + 1)])
      else
        ({ c.st with core := c.st.core.set c.b_addr (c.st.core.getD c.a_addr 0) },
          [c.st.normalize ((pc : Int) + 1)])
  | Opcode.ADD => (c.st.modifyB c.b_addr (fun b => b + c.a_val), [c.st.normalize ((pc : Int) + 1)])
  | Opcode.SUB => (c.st.modifyB c.b_addr (fun b => b - c.a_val), [c.st.normalize ((pc : Int) + 1)])
  | Opcode.MUL => (c.st.modifyB c.b_addr (fun b => b * c.a_val), [c.st.normalize ((pc : Int) + 1)])
  | Opcode.DIV =>
      (if c.a_val ≠ 0 then c.st.modifyB c.b_addr (fun b => Int.fdiv b c.a_val) else c.st,
        [c.st.normalize ((pc : Int) + 1)])
  | Opcode.MOD =>
      (if c.a_val ≠ 0 then c.st.modifyB c.b_addr (fun b => Int.fmod b c.a_val) else c.st,
        [c.st.normalize ((pc : Int) + 1)])
  | Opcode.JMP => (c.st, [c.a_addr])
  | Opcode.JMZ =>
      (c.st, if c.b_val = 0 then [c.a_addr] else [c.st.normalize ((pc : Int) + 1)])
  | Opcode.JMN =>
      (c.st, if c.b_val ≠ 0 then [c.a_addr] else [c.st.normalize ((pc : Int) + 1)])
  | Opcode.DJN =>
      let s3 := c.st.modifyB c.b_addr (fun b => b - 1)
      (s3, if (s3.instAt c.b_addr).b_value ≠ 0 then [c.a_addr]
           else [s3.normalize ((pc : Int) + 1)])
  | Opcode.CMP =>
      (c.st, if c.a_val = c.b_val then [c.st.normalize ((pc : Int) + 2)]
             else [c.st.normalize ((pc : Int) + 1)])
  | Opcode.SEQ =>
      (c.st, if c.a_val = c.b_val then [c.st.normalize ((pc : Int) + 2)]
             else [c.st.normalize ((pc : Int) + 1)])
  | Opcode.SNE =>
      (c.st, if c.a_val ≠ c.b_val then [c.st.normalize ((pc : Int) + 2)]
             else [c.st.normalize ((pc : Int) + 1)])
  | Opcode.SLT =>
      (c.st, if c.a_val < c.b_val then [c.st.normalize ((pc : Int) + 2)]
             else [c.st.normalize ((pc : Int) + 1)])
  | Opcode.SPL =>
      (c.st,
        if (c.st.warriors.getD wIdx default).processes.length < c.st.max_processes then
          [c.st.normalize ((pc : Int) + 1), c.a_addr]
        else
          [c.st.normalize ((pc : Int) + 1)])
  | Opcode.NOP => (c.st, [c.st.normalize ((pc : Int) + 1)])

/-- One warrior's turn inside `run_cycle`'s loop: skip if dead, else pop
the head PC, execute it, and append the successor PCs to the queue. -/
def stepWarrior (s : MARS) (i : Nat) : MARS :=
  match (s.warriors.getD i default).processes with
  | [] => s
  | pc :: rest =>
      let s1 := s.setProcesses i rest
      let r := executeInstruction s1 i pc
      r.1.setProcesses i ((r.1.warriors.getD i default).processes ++ r.2)

/-- `run_cycle`: returns the new machine and whether the battle
continues.  `alive_warriors[0]` is recorded as the index of the first
warrior with a non-empty process queue. -/
def runCycle (s : MARS) : MARS × Bool :=
  if s.max_cycles ≤ s.cycle then (s, false)
  else if (s.warriors.filter (fun w => !w.processes.isEmpty)).length ≤ 1 then
    match s.warriors.findIdx? (fun w => !w.processes.isEmpty) with
    | some i => ({ s with winner := some i }, false)
    | none => (s, false)
  else
    ({ (List.range s.warriors.length).foldl stepWarrior s with
        cycle := ((List.range s.warriors.length).foldl stepWarrior s).cycle + 1 }, true)

theorem resolveAddress_shape (s : MARS) (b : Nat) (m : AddressMode) (v : Int) :
    ∃ hp, (s.resolveAddress b m v).1 = { s with heap := hp } := by
  cases m <;> exact ⟨_, rfl⟩

theorem execSetup_shape (s : MARS) (pc : Nat) :
    ∃ hp, (execSetup s pc).st = { s with heap := hp } := by
  obtain ⟨h1, e1⟩ :=
    resolveAddress_shape s pc (s.instAt pc).a_mode (s.instAt pc).a_value
  obtain ⟨h2, e2⟩ :=
    resolveAddress_shape (s.resolveAddress pc (s.instAt pc).a_mode (s.instAt pc).a_value).1
      pc (s.instAt pc).b_mode
      (((s.resolveAddress pc (s.instAt pc).a_mode (s.instAt pc).a_value).1.instAt pc)).b_value
  refine ⟨h2, ?_⟩
  show (_ : MARS × Nat).1 = _
  rw [e2, e1]

theorem executeInstruction_frame (s : MARS) (w pc : Nat) :
    ((executeInstruction s w pc).1).warriors = s.warriors ∧
    ((executeInstruction s w pc).1).cycle = s.cycle ∧
    ((executeInstruction s w pc).1).max_cycles = s.max_cycles ∧
    ((executeInstruction s w pc).1).max_processes = s.max_processes ∧
    ((executeInstruction s w pc).1).core_size = s.core_size ∧
    ((executeInstruction s w pc).1).winner = s.winner := by
  obtain ⟨hp, hst⟩ := execSetup_shape s pc
  cases hop : (s.instAt pc).opcode <;>
    simp only [executeInstruction, hop] <;>
    (try split) <;>
    simp [hst, MARS.modifyB]

theorem executeInstruction_warriors (s : MARS) (w pc : Nat) :
    ((executeInstruction s w pc).1).warriors = s.warriors :=
  (executeInstruction_frame s w pc).1

theorem executeInstruction_cycle (s : MARS) (w pc : Nat) :
    ((executeInstruction s w pc).1).cycle = s.cycle :=
  (executeInstruction_frame s w pc).2.1

theorem executeInstruction_max_cycles (s : MARS) (w pc : Nat) :
    ((executeInstruction s w pc).1).max_cycles = s.max_cycles :=
  (executeInstruction_frame s w pc).2.2.1

theorem executeInstruction_max_processes (s : MARS) (w pc : Nat) :
    ((executeInstruction s w pc).1).max_processes = s.max_processes :=
  (executeInstruction_frame s w pc).2.2.2.1

theorem executeInstruction_core_size (s : MARS) (w pc : Nat) :
    ((executeInstruction s w pc).1).core_size = s.core_size :=
  (executeInstruction_frame s w pc).2.2.2.2.1

theorem setProcesses_cycle (s : MARS) (i : Nat) (ps : List Nat) :
    (s.setProcesses i ps).cycle = s.cycle := rfl

theorem setProcesses_max_cycles (s : MARS) (i : Nat) (ps : List Nat) :
    (s.setProcesses i ps).max_cycles = s.max_cycles := rfl

theorem setProcesses_max_processes (s : MARS) (i : Nat) (ps : List Nat) :
    (s.setProcesses i ps).max_processes = s.max_processes := rfl

theorem setProcesses_core_size (s : MARS) (i : Nat) (ps : List Nat) :
    (s.setProcesses i ps).core_size = s.core_size := rfl

theorem stepWarrior_cycle (s : MARS) (i : Nat) :
    (stepWarrior s i).cycle = s.cycle ∧ (stepWarrior s i).max_cycles = s.max_cycles := by
  unfold stepWarrior
  cases h : (s.warriors.getD i default).processes with
  | nil => exact ⟨rfl, rfl⟩
  | cons pc rest =>
      constructor
      · show ((executeInstruction (s.setProcesses i rest) i pc).1.setProcesses i _).cycle = s.cycle
        rw [setProcesses_cycle, executeInstruction_cycle, setProcesses_cycle]
      · show ((executeInstruction (s.setProcesses i rest) i pc).1.setProcesses i _).max_cycles
            = s.max_cycles
        rw [setProcesses_max_cycles, executeInstruction_max_cycles, setProcesses_max_cycles]

theorem foldl_stepWarrior_cycle (l : List Nat) :
    ∀ s : MARS, ((l.foldl stepWarrior s).cycle = s.cycle ∧
      (l.foldl stepWarrior s).max_cycles = s.max_cycles) := by
  induction l with
  | nil => intro s; exact ⟨rfl, rfl⟩
  | cons a l ih =>
      intro s
      have h1 := stepWarrior_cycle s a
      have h2 := ih (stepWarrior s a)
      simp only [List.foldl_cons]
      exact ⟨h2.1.trans h1.1, h2.2.trans h1.2⟩

theorem runCycle_true {s s1 : MARS} (h : runCycle s = (s1, true)) :
    s1.cycle = s.cycle + 1 ∧ s1.max_cycles = s.max_cycles ∧ s.cycle < s.max_cycles := by
  have hc := foldl_stepWarrior_cycle (List.range s.warriors.length) s
  unfold runCycle at h
  split at h
  · simp at h
  · rename_i hlt
    split at h
    · split at h <;> simp at h
    · rw [Prod.mk.injEq] at h
      obtain ⟨h1, -⟩ := h
      subst h1
      refine ⟨by simp [hc.1], by simp [hc.2], by omega⟩

/-- `run_battle`: iterate `run_cycle` until it reports the battle over. -/
def runBattle (s : MARS) : MARS :=
  match h : runCycle s with
  | (s1, true) => runBattle s1
  | (s1, false) => s1
termination_by s.max_cycles - s.cycle
decreasing_by
  have := runCycle_true h
  omega

/-- The condition of `get_memory_state`'s program-footprint tagging:
the cell differs from `DAT ... 0, ... 0` in opcode or operand values
(the address modes are not inspected). -/
def cellMarked (i : Instruction) : Prop :=
  i.opcode ≠ Opcode.DAT ∨ i.a_value ≠ 0 ∨ i.b_value ≠ 0

instance (i : Instruction) : Decidable (cellMarked i) := by
  unfold cellMarked; infer_instance

/-- The loop `for j in range(len(warrior.program))` of
`get_memory_state`, tagging the still-marked cells of the footprint
starting at offset `j`, `n` cells remaining. -/
def tagCells (s : MARS) (tag A : Nat) : Nat → Nat → List Nat → List Nat
  | _, 0, state => state
  | j, n + 1, state =>
      let addr := s.normalize (((A + j : Nat) : Int))
      let state1 := if cellMarked (s.instAt addr) then state.set addr tag else state
      tagCells s tag A (j + 1) n state1

/-- One warrior's contribution to `get_memory_state`: footprint tags,
then a `tag + 10` process tag at each live PC. -/
def tagWarrior (s : MARS) (tag : Nat) (w : Warrior) (state : List Nat) : List Nat :=
  w.processes.foldl (fun st pc => st.set pc (tag + 10))
    (tagCells s tag w.start_address 0 w.program.length state)

/-- `get_memory_state`: ownership snapshot, warriors 1-indexed. -/
def getMemoryState (s : MARS) : List Nat :=
  (s.warriors.enum).foldl (fun st p => tagWarrior s (p.1 + 1) p.2 st)
    (List.replicate s.core_size 0)

/-- The instruction values of warrior `i`'s own `program` record (each
id looked up in the current store). -/
def warriorProgram (s : MARS) (i : Nat) : List Instruction :=
  (s.warriors.getD i default).program.map (fun id => s.heap.getD id initialDat)

/-- Battle states reachable from `s0` through `run_cycle` calls. -/
inductive Reachable (s0 : MARS) : MARS → Prop
  | refl : Reachable s0 s0
  | step {s : MARS} : Reachable s0 s → Reachable s0 (runCycle s).1

/-- Per-warrior process-count bound actually maintained by the code. -/
def procInv (s : MARS) : Prop :=
  ∀ w ∈ s.warriors, w.processes.length ≤ s.max_processes + 1

instance (s : MARS) : Decidable (procInv s) := by
  unfold procInv
  infer_instance

/-! ### List helpers -/

theorem getD_set_self {α : Type} (l : List α) (i : Nat) (v d : α) (h : i < l.length) :
    (l.set i v).getD i d = v := by
  simp [List.getD, List.getElem?_set_self', h]

theorem getD_set_ne {α : Type} (l : List α) (i j : Nat) (v d : α) (h : i ≠ j) :
    (l.set i v).getD j d = l.getD j d := by
  simp [List.getD, List.getElem?_set_ne h]

theorem getD_mem {α : Type} (l : List α) (i : Nat) (d : α) (h : i < l.length) :
    l.getD i d ∈ l := by
  rw [List.getD_eq_getElem l d h]
  exact List.getElem_mem h

theorem getD_oob {α : Type} (l : List α) (i : Nat) (d : α) (h : l.length ≤ i) :
    l.getD i d = d := by
  simp [List.getD, List.getElem?_eq_none h]

/-! ### Process-queue accounting -/

theorem index_lt_of_queue (s : MARS) (i : Nat)
    (h : (s.warriors.getD i default).processes ≠ []) : i < s.warriors.length := by
  by_contra hi
  apply h
  rw [getD_oob _ _ _ (by omega)]
  rfl

theorem executeInstruction_succ_len (s : MARS) (w pc : Nat) :
    (executeInstruction s w pc).2.length ≤ 2 ∧
    ((executeInstruction s w pc).2.length = 2 →
      (s.instAt pc).opcode = Opcode.SPL ∧
      (s.warriors.getD w default).processes.length < s.max_processes) := by
  obtain ⟨hp, hst⟩ := execSetup_shape s pc
  cases hop : (s.instAt pc).opcode <;>
    simp only [executeInstruction, hop, hst] <;>
    (try split) <;>
    simp_all

theorem executeInstruction_spl_len (s : MARS) (w pc : Nat)
    (hop : (s.instAt pc).opcode = Opcode.SPL) :
    (executeInstruction s w pc).2.length =
      if (s.warriors.getD w default).processes.length < s.max_processes then 2 else 1 := by
  obtain ⟨hp, hst⟩ := execSetup_shape s pc
  simp only [executeInstruction, hop, hst]
  split <;> simp_all

theorem stepWarrior_queue (s : MARS) (i pc : Nat) (rest : List Nat)
    (hq : (s.warriors.getD i default).processes = pc :: rest) :
    (stepWarrior s i).warriors =
      s.warriors.set i { s.warriors.getD i default with
        processes := rest ++ (executeInstruction (s.setProcesses i rest) i pc).2 } := by
  have hi : i < s.warriors.length := index_lt_of_queue s i (by rw [hq]; simp)
  unfold stepWarrior
  rw [hq]
  show ((executeInstruction (s.setProcesses i rest) i pc).1.setProcesses i _).warriors = _
  simp only [MARS.setProcesses]
  rw [executeInstruction_warriors]
  simp only [MARS.setProcesses]
  rw [List.set_set, getD_set_self _ _ _ _ hi]

theorem stepWarrior_nil (s : MARS) (i : Nat)
    (hq : (s.warriors.getD i default).processes = []) : stepWarrior s i = s := by
  unfold stepWarrior
  rw [hq]

theorem stepWarrior_max_processes (s : MARS) (i : Nat) :
    (stepWarrior s i).max_processes = s.max_processes := by
  unfold stepWarrior
  cases hq : (s.warriors.getD i default).processes with
  | nil => rfl
  | cons pc rest =>
      show ((executeInstruction (s.setProcesses i rest) i pc).1.setProcesses i _).max_processes = _
      rw [setProcesses_max_processes, executeInstruction_max_processes,
        setProcesses_max_processes]

theorem stepWarrior_procInv (s : MARS) (i : Nat) (h : procInv s) : procInv (stepWarrior s i) := by
  cases hq : (s.warriors.getD i default).processes with
  | nil => rw [stepWarrior_nil s i hq]; exact h
  | cons pc rest =>
      have hi : i < s.warriors.length := index_lt_of_queue s i (by rw [hq]; simp)
      intro w hw
      rw [stepWarrior_max_processes]
      rw [stepWarrior_queue s i pc rest hq] at hw
      rcases List.mem_or_eq_of_mem_set hw with hw' | rfl
      · exact h w hw'
      · simp only [List.length_append]
        have hold := h (s.warriors.getD i default) (getD_mem _ _ _ hi)
        rw [hq] at hold
        simp only [List.length_cons] at hold
        have hsucc := executeInstruction_succ_len (s.setProcesses i rest) i pc
        by_cases h2 : (executeInstruction (s.setProcesses i rest) i pc).2.length = 2
        · obtain ⟨-, hcond⟩ := hsucc.2 h2
          have hrest : rest.length < s.max_processes := by
            have e1 : (s.setProcesses i rest).warriors.getD i default
                = { s.warriors.getD i default with processes := rest } := by
              simp only [MARS.setProcesses]
              exact getD_set_self _ _ _ _ hi
            rw [e1, setProcesses_max_processes] at hcond
            exact hcond
          omega
        · have := hsucc.1
          omega

theorem foldl_stepWarrior_preserve (P : MARS → Prop)
    (hP : ∀ s i, P s → P (stepWarrior s i)) :
    ∀ (l : List Nat) (s : MARS), P s → P (l.foldl stepWarrior s) := by
  intro l
  induction l with
  | nil => intro s h; exact h
  | cons a l ih =>
      intro s h
      simp only [List.foldl_cons]
      exact ih _ (hP s a h)

theorem runCycle_procInv (s : MARS) (h : procInv s) : procInv (runCycle s).1 := by
  unfold runCycle
  split
  · exact h
  · split
    · split
      · exact fun w hw => h w hw
      · exact h
    · exact foldl_stepWarrior_preserve procInv stepWarrior_procInv _ s h

/-! ### Battle-loop accounting -/

theorem runCycle_stop (s : MARS) (h : s.max_cycles ≤ s.cycle) : runCycle s = (s, false) := by
  unfold runCycle
  rw [if_pos h]

theorem runCycle_false {s s1 : MARS} (h : runCycle s = (s1, false)) :
    s1.cycle = s.cycle ∧ s1.max_cycles = s.max_cycles := by
  unfold runCycle at h
  split at h
  · rw [Prod.mk.injEq] at h
    obtain ⟨h1, -⟩ := h
    subst h1
    exact ⟨rfl, rfl⟩
  · split at h
    · split at h <;>
        (rw [Prod.mk.injEq] at h
         obtain ⟨h1, -⟩ := h
         subst h1
         exact ⟨rfl, rfl⟩)
    · simp at h

theorem runCycle_cycle_le (s : MARS) (h : s.cycle ≤ s.max_cycles) :
    (runCycle s).1.cycle ≤ (runCycle s).1.max_cycles := by
  cases hb : (runCycle s).2 with
  | false =>
      have hx : runCycle s = ((runCycle s).1, false) := by rw [← hb]
      have := runCycle_false hx
      omega
  | true =>
      have hx : runCycle s = ((runCycle s).1, true) := by rw [← hb]
      have := runCycle_true hx
      omega

theorem runBattle_le (n : Nat) :
    ∀ s : MARS, s.max_cycles - s.cycle ≤ n →
      (runBattle s).max_cycles = s.max_cycles ∧
      (s.cycle ≤ s.max_cycles → (runBattle s).cycle ≤ s.max_cycles) := by
  induction n with
  | zero =>
      intro s hn
      have hst : s.max_cycles ≤ s.cycle := by omega
      rw [runBattle, runCycle_stop s hst]
      exact ⟨rfl, fun h => h⟩
  | succ n ih =>
      intro s hn
      rw [runBattle]
      cases hrc : runCycle s with
      | mk s1 b =>
          cases b with
          | false =>
              have hf := runCycle_false hrc
              simp only
              exact ⟨hf.2, fun h => by omega⟩
          | true =>
              have ht := runCycle_true hrc
              simp only
              have := ih s1 (by omega)
              exact ⟨this.1.trans ht.2.1, fun h => by
                have h1 : s1.cycle ≤ s1.max_cycles := by omega
                have := (this.2 h1)
                omega⟩

theorem MARS.normalize_lt (s : MARS) (x : Int) (h : 0 < s.core_size) :
    s.normalize x < s.core_size := by
  unfold MARS.normalize
  have h0 : (0 : Int) < (s.core_size : Int) := by exact_mod_cast h
  have h1 : 0 ≤ x % (s.core_size : Int) := Int.emod_nonneg x (by omega)
  have h2 : x % (s.core_size : Int) < (s.core_size : Int) := Int.emod_lt_of_pos x h0
  omega

/-! ### Concrete battles used as test fixtures -/

/-- Two warriors: `SPL $0, $0` at 0 and `JMP $0, $0` at 4, with
`max_processes = 1`. -/
def splBattle : MARS :=
  loadWarrior
    (loadWarrior (MARS.init 8 10 1 100) "w1" "a"
      [⟨Opcode.SPL, AddressMode.DIRECT, 0, AddressMode.DIRECT, 0⟩] 0)
    "w2" "a" [⟨Opcode.JMP, AddressMode.DIRECT, 0, AddressMode.DIRECT, 0⟩] 4

/-- Two warriors: `ADD #1, $0` at 0 (its B operand resolves to its own
cell) and `JMP $0, $0` at 4. -/
def addBattle : MARS :=
  loadWarrior
    (loadWarrior (MARS.init 8 10 8 100) "w1" "a"
      [⟨Opcode.ADD, AddressMode.IMMEDIATE, 1, AddressMode.DIRECT, 0⟩] 0)
    "w2" "a" [⟨Opcode.JMP, AddressMode.DIRECT, 0, AddressMode.DIRECT, 0⟩] 4

/-- One warrior of length 2 loaded into a machine whose
`max_program_length` is 1. -/
def longBattle : MARS :=
  loadWarrior (MARS.init 8 10 8 1) "long" "a"
    [⟨Opcode.NOP, AddressMode.DIRECT, 0, AddressMode.DIRECT, 0⟩,
     ⟨Opcode.NOP, AddressMode.DIRECT, 0, AddressMode.DIRECT, 0⟩] 0

/-- One warrior whose single instruction is `DIV #0, $1`. -/
def divBattle : MARS :=
  loadWarrior (MARS.init 8 10 8 100) "w" "a"
    [⟨Opcode.DIV, AddressMode.IMMEDIATE, 0, AddressMode.DIRECT, 1⟩] 0

/-! ### C1 -/

/-- C1 (counterexample): with `max_processes = 1`, the state reached
after one `run_cycle` has warrior 1 holding 2 live processes, strictly
more than `max_processes_per_warrior` — the claimed invariant
"process count never exceeds `max_processes_per_warrior`" is false,
because SPL checks the queue length after the executing PC was popped. -/
theorem c1_counterexample :
    Reachable splBattle (runCycle splBattle).1 ∧
    ((runCycle splBattle).1.warriors.getD 0 default).processes.length
      > (runCycle splBattle).1.max_processes :=
  ⟨Reachable.step Reachable.refl, by decide⟩

/-- C1 (amended): in every reachable battle state, a warrior's live
process count never exceeds `max_processes_per_warrior + 1`, and SPL is
the only opcode whose execution can increase the count (executing any
non-SPL head instruction never increases the warrior's queue length). -/
theorem c1_process_bound (s0 s : MARS) (h0 : procInv s0) (hr : Reachable s0 s) :
    procInv s ∧
    (∀ i pc rest, (s.warriors.getD i default).processes = pc :: rest →
      (s.instAt pc).opcode ≠ Opcode.SPL →
      ((stepWarrior s i).warriors.getD i default).processes.length
        ≤ (s.warriors.getD i default).processes.length) := by
  constructor
  · induction hr with
    | refl => exact h0
    | step hr ih => exact runCycle_procInv _ ih
  · intro i pc rest hq hop
    have hi : i < s.warriors.length := index_lt_of_queue s i (by rw [hq]; simp)
    rw [stepWarrior_queue s i pc rest hq, getD_set_self _ _ _ _ hi, hq]
    simp only [List.length_append, List.length_cons]
    have hsucc := executeInstruction_succ_len (s.setProcesses i rest) i pc
    by_cases h2 : (executeInstruction (s.setProcesses i rest) i pc).2.length = 2
    · exact absurd (hsucc.2 h2).1 hop
    · have := hsucc.1
      omega

theorem c1_process_bound_witness : procInv (runCycle splBattle).1 :=
  (c1_process_bound splBattle (runCycle splBattle).1 (by decide)
    (Reachable.step Reachable.refl)).1

/-! ### C2 -/

/-- C2 (counterexample): warrior 1 has exactly `max_processes` (= 1)
live processes and its head instruction is SPL; executing it yields one
additional live process, not zero — the claim's "at the cap, none
additional" is false. -/
theorem c2_counterexample :
    (splBattle.warriors.getD 0 default).processes.length = splBattle.max_processes ∧
    (splBattle.instAt 0).opcode = Opcode.SPL ∧
    ((stepWarrior splBattle 0).warriors.getD 0 default).processes.length
      = (splBattle.warriors.getD 0 default).processes.length + 1 := by decide

/-- C2 (amended): the SPL spawn test compares the queue length with the
executing PC already removed against the cap: if the rest of the queue
is shorter than `max_processes` the warrior ends the step with
`rest + 2` processes (one additional), otherwise with `rest + 1` (none
additional).  So SPL at a pre-execution count of exactly
`max_processes` still spawns; only at `max_processes + 1` does it
stop spawning. -/
theorem c2_spl_spawn (s : MARS) (i pc : Nat) (rest : List Nat)
    (hq : (s.warriors.getD i default).processes = pc :: rest)
    (hop : (s.instAt pc).opcode = Opcode.SPL) :
    ((stepWarrior s i).warriors.getD i default).processes.length =
      if rest.length < s.max_processes then rest.length + 2 else rest.length + 1 := by
  have hi : i < s.warriors.length := index_lt_of_queue s i (by rw [hq]; simp)
  rw [stepWarrior_queue s i pc rest hq, getD_set_self _ _ _ _ hi]
  simp only [List.length_append]
  have hlen := executeInstruction_spl_len (s.setProcesses i rest) i pc hop
  have e1 : ((s.setProcesses i rest).warriors.getD i default).processes = rest := by
    simp only [MARS.setProcesses]
    rw [getD_set_self _ _ _ _ hi]
  rw [e1, setProcesses_max_processes] at hlen
  rw [hlen]
  split <;> omega

theorem c2_spl_spawn_witness :
    (splBattle.warriors.getD 0 default).processes = 0 :: [] ∧
    (splBattle.instAt 0).opcode = Opcode.SPL ∧
    ((stepWarrior splBattle 0).warriors.getD 0 default).processes.length =
      if ([] : List Nat).length < splBattle.max_processes then ([] : List Nat).length + 2
      else ([] : List Nat).length + 1 :=
  ⟨by decide, by decide, c2_spl_spawn splBattle 0 0 [] (by decide) (by decide)⟩

/-! ### C3 -/

/-- C3 (code-bug evidence): `load_warrior` performs no length or fit
check at all — loading a program of length 2 into a machine with
`max_program_length = 1` succeeds: the warrior is appended, given a
live process, and the core is mutated.  No `PlacementError` exists
anywhere in the code and `max_length` is stored but never read. -/
theorem c3_no_placement_failure :
    (MARS.init 8 10 8 1).max_length = 1 ∧
    longBattle.warriors.length = 1 ∧
    (longBattle.warriors.getD 0 default).processes = [0] ∧
    longBattle.instAt 0 ≠ (MARS.init 8 10 8 1).instAt 0 := by decide

/-! ### C4 -/

/-- C4 (code-bug evidence): `load_warrior` copies object references,
not values, so the core cell and `warrior.program[0]` are the same
mutable object; one `run_cycle` in which warrior 1 executes
`ADD #1, $0` (targeting its own cell) changes `warrior.program`
itself — the "unchanging record" claim is false of the code. -/
theorem c4_program_mutated :
    Reachable addBattle (runCycle addBattle).1 ∧
    warriorProgram (runCycle addBattle).1 0 ≠ warriorProgram addBattle 0 :=
  ⟨Reachable.step Reachable.refl, by decide⟩

/-! ### C6 -/

/-- C6: for every address mode, operand value, and base PC in
`[0, core_size)`, `resolve_address` returns an index in
`[0, core_size)`; `normalize x` computes `x mod core_size`, which is
always non-negative. -/
theorem c6_resolve_in_range (s : MARS) (base : Nat) (mode : AddressMode) (value : Int)
    (hcs : 0 < s.core_size) (hbase : base < s.core_size) :
    (s.resolveAddress base mode value).2 < s.core_size ∧
    (∀ x : Int, 0 ≤ x % (s.core_size : Int) ∧
      ((s.normalize x : Nat) : Int) = x % (s.core_size : Int)) := by
  constructor
  · cases mode <;> simp only [MARS.resolveAddress]
    case IMMEDIATE => exact hbase
    case DIRECT => exact s.normalize_lt _ hcs
    case INDIRECT => exact s.normalize_lt _ hcs
    case PREDECREMENT => exact (s.modifyB _ _).normalize_lt _ hcs
    case POSTINCREMENT => exact s.normalize_lt _ hcs
  · intro x
    have h0 : (0 : Int) < (s.core_size : Int) := by exact_mod_cast hcs
    have h1 : 0 ≤ x % (s.core_size : Int) := Int.emod_nonneg x (by omega)
    have h2 : x % (s.core_size : Int) < (s.core_size : Int) := Int.emod_lt_of_pos x h0
    refine ⟨h1, ?_⟩
    unfold MARS.normalize
    omega

theorem c6_resolve_in_range_witness :
    0 < (MARS.init 8 10 8 100).core_size ∧
    3 < (MARS.init 8 10 8 100).core_size ∧
    (((MARS.init 8 10 8 100).resolveAddress 3 AddressMode.PREDECREMENT (-5)).2
        < (MARS.init 8 10 8 100).core_size ∧
      (∀ x : Int, 0 ≤ x % ((MARS.init 8 10 8 100).core_size : Int) ∧
        (((MARS.init 8 10 8 100).normalize x : Nat) : Int)
          = x % ((MARS.init 8 10 8 100).core_size : Int))) :=
  ⟨by decide, by decide,
    c6_resolve_in_range (MARS.init 8 10 8 100) 3 AddressMode.PREDECREMENT (-5)
      (by decide) (by decide)⟩

/-! ### C8 -/

/-- C8: executing DIV or MOD always yields the single successor
`(pc + 1) mod core_size` (the same in the zero and non-zero cases, and
no exception path exists), and when the resolved `a_val` is 0 the
opcode dispatch is a no-op: the machine is left exactly as it stood
after operand resolution, so `core[b_addr]` is untouched by the
opcode. -/
theorem c8_div_mod_by_zero (s : MARS) (w pc : Nat)
    (hop : (s.instAt pc).opcode = Opcode.DIV ∨ (s.instAt pc).opcode = Opcode.MOD) :
    (executeInstruction s w pc).2 = [s.normalize ((pc : Int) + 1)] ∧
    ((execSetup s pc).a_val = 0 → (executeInstruction s w pc).1 = (execSetup s pc).st) := by
  obtain ⟨hp, hst⟩ := execSetup_shape s pc
  rcases hop with hop | hop
  · refine ⟨?_, fun hz => ?_⟩
    · simp [executeInstruction, hop, hst, MARS.normalize]
    · simp [executeInstruction, hop, hz]
  · refine ⟨?_, fun hz => ?_⟩
    · simp [executeInstruction, hop, hst, MARS.normalize]
    · simp [executeInstruction, hop, hz]

theorem c8_div_mod_by_zero_witness :
    ((divBattle.instAt 0).opcode = Opcode.DIV ∨ (divBattle.instAt 0).opcode = Opcode.MOD) ∧
    (execSetup divBattle 0).a_val = 0 ∧
    ((executeInstruction divBattle 0 0).2 = [divBattle.normalize ((0 : Nat) + 1 : Int)] ∧
      ((execSetup divBattle 0).a_val = 0 →
        (executeInstruction divBattle 0 0).1 = (execSetup divBattle 0).st)) :=
  ⟨by decide, by decide, c8_div_mod_by_zero divBattle 0 0 (by decide)⟩

/-! ### C9 -/

/-- C9: `run_battle` terminates (it is a total function, defined by
recursion on `max_cycles - cycle`), the cycle counter never passes
`max_cycles` in any reachable state, `run_battle` ends with
`cycle ≤ max_cycles`, and once `cycle >= max_cycles` holds,
`run_cycle` returns `false` with the state unchanged — no further
instruction executes. -/
theorem c9_cycle_bound (s0 s : MARS) (hr : Reachable s0 s) (h0 : s0.cycle ≤ s0.max_cycles) :
    s.cycle ≤ s.max_cycles ∧
    (runBattle s).cycle ≤ s.max_cycles ∧
    (s.max_cycles ≤ s.cycle → runCycle s = (s, false)) := by
  have hs : s.cycle ≤ s.max_cycles := by
    induction hr with
    | refl => exact h0
    | step hr ih => exact runCycle_cycle_le _ ih
  exact ⟨hs, (runBattle_le (s.max_cycles - s.cycle) s (le_refl _)).2 hs, runCycle_stop s⟩

theorem c9_cycle_bound_witness :
    splBattle.cycle ≤ splBattle.max_cycles ∧
    (runBattle splBattle).cycle ≤ splBattle.max_cycles ∧
    (splBattle.max_cycles ≤ splBattle.cycle → runCycle splBattle = (splBattle, false)) :=
  c9_cycle_bound splBattle splBattle Reachable.refl (by decide)

/-! ### C10 -/

/-- Building a battle: create the machine, then load the given
warriors (name, author, program, explicit start address) in list
order. -/
def setupBattle (cs mc mp ml : Nat)
    (ws : List (String × String × List Instruction × Nat)) : MARS :=
  ws.foldl (fun s p => loadWarrior s p.1 p.2.1 p.2.2.1 p.2.2.2) (MARS.init cs mc mp ml)

/-- C10: battles built from identical parameters and identical warrior
lists (same programs, same list order, same fixed explicit start
addresses — no randomized placement) produce identical winner identity
and identical final cycle count; the explicit-address pipeline contains
no other source of nondeterminism, being a pure function of its
inputs. -/
theorem c10_deterministic (cs mc mp ml : Nat)
    (ws1 ws2 : List (String × String × List Instruction × Nat)) (h : ws1 = ws2) :
    (runBattle (setupBattle cs mc mp ml ws1)).winner
      = (runBattle (setupBattle cs mc mp ml ws2)).winner ∧
    (runBattle (setupBattle cs mc mp ml ws1)).cycle
      = (runBattle (setupBattle cs mc mp ml ws2)).cycle := by
  subst h
  exact ⟨rfl, rfl⟩

theorem c10_deterministic_witness :
    (runBattle (setupBattle 8 5 1 100
        [("w1", "a", [⟨Opcode.SPL, AddressMode.DIRECT, 0, AddressMode.DIRECT, 0⟩], 0),
         ("w2", "a", [⟨Opcode.JMP, AddressMode.DIRECT, 0, AddressMode.DIRECT, 0⟩], 4)])).winner
      = (runBattle (setupBattle 8 5 1 100
        [("w1", "a", [⟨Opcode.SPL, AddressMode.DIRECT, 0, AddressMode.DIRECT, 0⟩], 0),
         ("w2", "a", [⟨Opcode.JMP, AddressMode.DIRECT, 0, AddressMode.DIRECT, 0⟩], 4)])).winner ∧
    (runBattle (setupBattle 8 5 1 100
        [("w1", "a", [⟨Opcode.SPL, AddressMode.DIRECT, 0, AddressMode.DIRECT, 0⟩], 0),
         ("w2", "a", [⟨Opcode.JMP, AddressMode.DIRECT, 0, AddressMode.DIRECT, 0⟩], 4)])).cycle
      = (runBattle (setupBattle 8 5 1 100
        [("w1", "a", [⟨Opcode.SPL, AddressMode.DIRECT, 0, AddressMode.DIRECT, 0⟩], 0),
         ("w2", "a", [⟨Opcode.JMP, AddressMode.DIRECT, 0, AddressMode.DIRECT, 0⟩], 4)])).cycle :=
  c10_deterministic 8 5 1 100
    [("w1", "a", [⟨Opcode.SPL, AddressMode.DIRECT, 0, AddressMode.DIRECT, 0⟩], 0),
     ("w2", "a", [⟨Opcode.JMP, AddressMode.DIRECT, 0, AddressMode.DIRECT, 0⟩], 4)]
    [("w1", "a", [⟨Opcode.SPL, AddressMode.DIRECT, 0, AddressMode.DIRECT, 0⟩], 0),
     ("w2", "a", [⟨Opcode.JMP, AddressMode.DIRECT, 0, AddressMode.DIRECT, 0⟩], 4)]
    rfl

/-! ### Characterizing `load_warrior` -/

theorem MARS.normalize_natCast (s : MARS) (n : Nat) :
    s.normalize (n : Int) = n % s.core_size := by
  unfold MARS.normalize
  rw [← Int.natCast_mod, Int.toNat_natCast]

theorem copyProgram_length (cs : Nat) (ids : List Nat) :
    ∀ (core : List Nat) (A : Nat), (copyProgram core cs A ids).length = core.length := by
  induction ids with
  | nil => intro core A; rfl
  | cons id rest ih =>
      intro core A
      simp only [copyProgram]
      rw [ih]
      simp

theorem copyProgram_miss (cs : Nat) (ids : List Nat) :
    ∀ (core : List Nat) (A addr : Nat), (∀ j, j < ids.length → addr ≠ (A + j) % cs) →
      (copyProgram core cs A ids).getD addr 0 = core.getD addr 0 := by
  induction ids with
  | nil => intro core A addr h; rfl
  | cons id rest ih =>
      intro core A addr h
      simp only [copyProgram]
      rw [ih _ _ _ ?later]
      case later =>
        intro j hj
        have h1 := h (j + 1) (by simp only [List.length_cons]; omega)
        have e : A + (j + 1) = A + 1 + j := by omega
        rw [e] at h1
        exact h1
      have h0 := h 0 (by simp only [List.length_cons]; omega)
      rw [Nat.add_zero] at h0
      rw [getD_set_ne _ _ _ _ _ (fun e => h0 e.symm)]

theorem copyProgram_hit (cs : Nat) (ids : List Nat) (hcs : 0 < cs) :
    ∀ (core : List Nat) (A : Nat), ids.length ≤ cs → core.length = cs →
      ∀ j, j < ids.length →
        (copyProgram core cs A ids).getD ((A + j) % cs) 0 = ids.getD j 0 := by
  induction ids with
  | nil => intro core A hlen hcore j hj; simp at hj
  | cons id rest ih =>
      intro core A hlen hcore j hj
      cases j with
      | zero =>
          simp only [copyProgram, Nat.add_zero]
          rw [copyProgram_miss cs rest _ _ _ ?sep]
          case sep =>
            intro jj hjj contra
            have hm : Nat.ModEq cs A (A + (1 + jj)) := by
              show A % cs = (A + (1 + jj)) % cs
              rw [contra]
              congr 1
              omega
            have hdvd : cs ∣ 1 + jj := by
              have := (Nat.modEq_iff_dvd' (Nat.le_add_right A (1 + jj))).1 hm
              simpa using this
            have hle := Nat.le_of_dvd (by omega) hdvd
            simp only [List.length_cons] at hlen
            omega
          · rw [getD_set_self _ _ _ _ (by rw [hcore]; exact Nat.mod_lt A hcs)]
            rfl
      | succ j1 =>
          simp only [copyProgram]
          have e : A + (j1 + 1) = (A + 1) + j1 := by omega
          rw [e]
          rw [ih (core.set (A % cs) id) (A + 1)
            (by simp only [List.length_cons] at hlen; omega)
            (by simp [hcore]) j1 (by simp only [List.length_cons] at hj; omega)]
          rfl

theorem ids_getD (n L j : Nat) (hj : j < L) :
    ((List.range L).map (fun i => n + i)).getD j 0 = n + j := by
  rw [List.getD_eq_getElem?_getD, List.getElem?_map, List.getElem?_range hj]
  rfl

theorem loadWarrior_core_length (s : MARS) (nm au : String) (prog : List Instruction) (A : Nat) :
    (loadWarrior s nm au prog A).core.length = s.core.length := by
  unfold loadWarrior
  exact copyProgram_length _ _ _ _

/-- Where the load hits: cell `(A + j) mod core_size` holds (a fresh
object whose value is) `prog[j]`. -/
theorem loadWarrior_instAt_hit (s : MARS) (nm au : String) (prog : List Instruction) (A : Nat)
    (hcs : 0 < s.core_size) (hcore : s.core.length = s.core_size)
    (hL : prog.length ≤ s.core_size) (j : Nat) (hj : j < prog.length) :
    (loadWarrior s nm au prog A).instAt ((A + j) % s.core_size) = prog.getD j initialDat := by
  unfold loadWarrior MARS.instAt
  simp only
  rw [copyProgram_hit s.core_size _ hcs s.core A (by simpa using hL) hcore j (by simpa using hj)]
  rw [ids_getD _ _ _ hj]
  simp only [List.getD_eq_getElem?_getD]
  rw [List.getElem?_append_right (by omega)]
  congr 2
  omega

/-- Where the load misses: every other cell still holds the very
object (hence the very value) it held before. -/
theorem loadWarrior_instAt_miss (s : MARS) (nm au : String) (prog : List Instruction)
    (A addr : Nat) (hmiss : ∀ j, j < prog.length → addr ≠ (A + j) % s.core_size)
    (hclosed : s.core.getD addr 0 < s.heap.length) :
    (loadWarrior s nm au prog A).instAt addr = s.instAt addr := by
  unfold loadWarrior MARS.instAt
  simp only
  rw [copyProgram_miss s.core_size _ s.core A addr (by simpa using hmiss)]
  rw [List.getD_eq_getElem?_getD] at hclosed
  simp only [List.getD_eq_getElem?_getD]
  rw [List.getElem?_append, if_pos hclosed]

/-- The freshly appended warrior record. -/
theorem loadWarrior_warrior (s : MARS) (nm au : String) (prog : List Instruction) (A : Nat) :
    (loadWarrior s nm au prog A).warriors.getD s.warriors.length default =
      { name := nm, author := au
        program := (List.range prog.length).map (fun i => s.heap.length + i)
        processes := [A], start_address := A } := by
  unfold loadWarrior
  simp only [List.getD_eq_getElem?_getD]
  rw [List.getElem?_append_right (le_refl _)]
  simp

/-! ### Characterizing `get_memory_state` -/

theorem getD_replicate {α : Type} (n i : Nat) (a : α) :
    (List.replicate n a).getD i a = a := by
  rw [List.getD_eq_getElem?_getD, List.getElem?_replicate]
  split <;> rfl

theorem tagCells_length (s : MARS) (tag A : Nat) :
    ∀ (n j : Nat) (state : List Nat), (tagCells s tag A j n state).length = state.length := by
  intro n
  induction n with
  | zero => intro j state; rfl
  | succ n ih =>
      intro j state
      simp only [tagCells]
      rw [ih]
      split <;> simp

theorem tagCells_miss (s : MARS) (tag A addr : Nat) :
    ∀ (n j : Nat) (state : List Nat),
      (∀ i, i < n → addr ≠ (A + (j + i)) % s.core_size) →
      (tagCells s tag A j n state).getD addr 0 = state.getD addr 0 := by
  intro n
  induction n with
  | zero => intro j state _; rfl
  | succ n ih =>
      intro j state h
      simp only [tagCells, MARS.normalize_natCast]
      rw [ih (j + 1) _ ?rec]
      case rec =>
        intro i hi
        have h1 := h (i + 1) (by omega)
        have e : A + (j + (i + 1)) = A + (j + 1 + i) := by omega
        rw [e] at h1
        exact h1
      have h0 := h 0 (by omega)
      rw [Nat.add_zero] at h0
      split
      · rw [getD_set_ne _ _ _ _ _ (fun e => h0 e.symm)]
      · rfl

theorem tagCells_clean (s : MARS) (tag A addr : Nat)
    (hclean : ¬ cellMarked (s.instAt addr)) :
    ∀ (n j : Nat) (state : List Nat),
      (tagCells s tag A j n state).getD addr 0 = state.getD addr 0 := by
  intro n
  induction n with
  | zero => intro j state; rfl
  | succ n ih =>
      intro j state
      simp only [tagCells, MARS.normalize_natCast]
      rw [ih (j + 1)]
      by_cases he : (A + j) % s.core_size = addr
      · rw [if_neg (by rw [he]; exact hclean)]
      · split
        · rw [getD_set_ne _ _ _ _ _ he]
        · rfl

theorem tagCells_tagged (s : MARS) (tag A addr : Nat) :
    ∀ (n j : Nat) (state : List Nat), addr < state.length →
      state.getD addr 0 = tag →
      (tagCells s tag A j n state).getD addr 0 = tag := by
  intro n
  induction n with
  | zero => intro j state _ h; exact h
  | succ n ih =>
      intro j state hlt h
      simp only [tagCells, MARS.normalize_natCast]
      split
      · apply ih (j + 1)
        · simpa using hlt
        · by_cases he : (A + j) % s.core_size = addr
          · rw [he, getD_set_self _ _ _ _ hlt]
          · rw [getD_set_ne _ _ _ _ _ he]
            exact h
      · exact ih (j + 1) _ hlt h

theorem tagCells_hit (s : MARS) (tag A addr : Nat)
    (hmark : cellMarked (s.instAt addr)) :
    ∀ (n j : Nat) (state : List Nat), addr < state.length →
      (∃ i, i < n ∧ addr = (A + (j + i)) % s.core_size) →
      (tagCells s tag A j n state).getD addr 0 = tag := by
  intro n
  induction n with
  | zero =>
      intro j state _ h
      obtain ⟨i, hi, -⟩ := h
      omega
  | succ n ih =>
      intro j state hlt hex
      obtain ⟨i, hi, he⟩ := hex
      simp only [tagCells, MARS.normalize_natCast]
      by_cases hhead : (A + j) % s.core_size = addr
      · rw [if_pos (by rw [hhead]; exact hmark)]
        exact tagCells_tagged s tag A addr n (j + 1) _ (by simpa using hlt)
          (by rw [hhead, getD_set_self _ _ _ _ hlt])
      · cases i with
        | zero =>
            rw [Nat.add_zero] at he
            exact absurd he.symm hhead
        | succ i1 =>
            have e : A + (j + (i1 + 1)) = A + (j + 1 + i1) := by omega
            rw [e] at he
            split
            · exact ih (j + 1) _ (by simpa using hlt) ⟨i1, by omega, he⟩
            · exact ih (j + 1) _ hlt ⟨i1, by omega, he⟩

/-- A battle that holds a single warrior reduces the snapshot to one
footprint pass followed by the single process tag. -/
theorem getMemoryState_singleton (s : MARS) (w : Warrior) (pA : Nat)
    (hw : s.warriors = [w]) (hp : w.processes = [pA]) :
    getMemoryState s =
      (tagCells s 1 w.start_address 0 w.program.length
        (List.replicate s.core_size 0)).set pA 11 := by
  unfold getMemoryState
  rw [hw]
  show tagWarrior s (0 + 1) w (List.replicate s.core_size 0) = _
  unfold tagWarrior
  rw [hp]
  rfl

/-! ### C7 -/

theorem init_closed (cs mc mp ml : Nat) (hcs : 0 < cs) :
    ∀ a, (MARS.init cs mc mp ml).core.getD a 0 < (MARS.init cs mc mp ml).heap.length := by
  intro a
  show (List.range cs).getD a 0 < (List.replicate cs initialDat).length
  rw [List.length_replicate]
  rcases Nat.lt_or_ge a cs with h | h
  · rw [List.getD_eq_getElem?_getD, List.getElem?_range h]
    simpa using h
  · rw [getD_oob _ _ _ (by simpa using h)]
    exact hcs

/-- A 2-instruction program loaded into a core of size 1: both writes
land on cell 0, so the claimed per-cell equation fails at i = 0. -/
def tinyBattle : MARS :=
  loadWarrior (MARS.init 1 10 8 100) "tiny" "a"
    [⟨Opcode.NOP, AddressMode.DIRECT, 0, AddressMode.DIRECT, 0⟩,
     ⟨Opcode.JMP, AddressMode.DIRECT, 0, AddressMode.DIRECT, 0⟩] 0

/-- C7 (counterexample): when the program does not fit
(`L > core_size`, here L = 2 and core_size = 1, and the code performs
no fit check — see C3), the writes wrap onto each other and
`core[(A+0) mod core_size]` no longer equals `program[0]`. -/
theorem c7_counterexample :
    tinyBattle.instAt ((0 + 0) % tinyBattle.core_size) ≠
      ([⟨Opcode.NOP, AddressMode.DIRECT, 0, AddressMode.DIRECT, 0⟩,
        ⟨Opcode.JMP, AddressMode.DIRECT, 0, AddressMode.DIRECT, 0⟩]
          : List Instruction).getD 0 initialDat := by decide

/-- C7 (amended): provided the program fits in the core
(`program_length ≤ core_size`, which the code never checks), loading a
warrior of length L at explicit address A writes exactly the L cells
`(A+i) mod core_size`: afterwards each such cell holds `program[i]`,
every other core cell is unchanged, and the new warrior record has
`start_address = A` and process queue `[A]`. -/
theorem c7_load_exact (s : MARS) (nm au : String) (prog : List Instruction) (A : Nat)
    (hcs : 0 < s.core_size) (hcore : s.core.length = s.core_size)
    (hL : prog.length ≤ s.core_size)
    (hclosed : ∀ a, s.core.getD a 0 < s.heap.length) :
    (∀ j, j < prog.length →
      (loadWarrior s nm au prog A).instAt ((A + j) % s.core_size) = prog.getD j initialDat) ∧
    (∀ addr, (∀ j, j < prog.length → addr ≠ (A + j) % s.core_size) →
      (loadWarrior s nm au prog A).instAt addr = s.instAt addr) ∧
    ((loadWarrior s nm au prog A).warriors.getD s.warriors.length default).start_address = A ∧
    ((loadWarrior s nm au prog A).warriors.getD s.warriors.length default).processes = [A] := by
  refine ⟨fun j hj => loadWarrior_instAt_hit s nm au prog A hcs hcore hL j hj,
    fun addr hm => loadWarrior_instAt_miss s nm au prog A addr hm (hclosed addr), ?_, ?_⟩
  · rw [loadWarrior_warrior]
  · rw [loadWarrior_warrior]

/-- The classic Imp, `MOV $0, $1`. -/
def impProg : List Instruction :=
  [⟨Opcode.MOV, AddressMode.DIRECT, 0, AddressMode.DIRECT, 1⟩]

theorem c7_load_exact_witness :
    (∀ j, j < impProg.length →
      (loadWarrior (MARS.init 8 10 8 100) "Imp" "a" impProg 3).instAt
          ((3 + j) % (MARS.init 8 10 8 100).core_size) = impProg.getD j initialDat) ∧
    (∀ addr, (∀ j, j < impProg.length → addr ≠ (3 + j) % (MARS.init 8 10 8 100).core_size) →
      (loadWarrior (MARS.init 8 10 8 100) "Imp" "a" impProg 3).instAt addr
        = (MARS.init 8 10 8 100).instAt addr) ∧
    ((loadWarrior (MARS.init 8 10 8 100) "Imp" "a" impProg 3).warriors.getD
        (MARS.init 8 10 8 100).warriors.length default).start_address = 3 ∧
    ((loadWarrior (MARS.init 8 10 8 100) "Imp" "a" impProg 3).warriors.getD
        (MARS.init 8 10 8 100).warriors.length default).processes = [3] :=
  c7_load_exact (MARS.init 8 10 8 100) "Imp" "a" impProg 3 (by decide) (by decide) (by decide)
    (init_closed 8 10 8 100 (by decide))

/-! ### C5 -/

/-- One warrior `[JMP $0,$0 ; DAT $0,$0]` loaded at 0: its second cell
differs from the sentinel only in its address modes. -/
def snapBattle : MARS :=
  loadWarrior (MARS.init 8 10 8 100) "w1" "a"
    [⟨Opcode.JMP, AddressMode.DIRECT, 0, AddressMode.DIRECT, 0⟩,
     ⟨Opcode.DAT, AddressMode.DIRECT, 0, AddressMode.DIRECT, 0⟩] 0

/-- C5 (counterexample): cell 1 lies inside warrior 1's original
footprint and holds `DAT $0, $0`, whose content differs from the
sentinel `DAT #0, #0` (different address modes), yet the snapshot taken
immediately after loading tags it 0, not 1 — `get_memory_state`
compares only opcode, `a_value` and `b_value`, never the modes. -/
theorem c5_counterexample :
    snapBattle.warriors.length = 1 ∧
    (snapBattle.warriors.getD 0 default).start_address = 0 ∧
    snapBattle.cycle = 0 ∧
    snapBattle.instAt 1 ≠ initialDat ∧
    (getMemoryState snapBattle).getD 1 0 = 0 := by decide

/-- C5 (amended): the snapshot has length `core_size` and is a pure
read (in this embedding `getMemoryState` returns a fresh list and
cannot mutate the machine).  For a battle holding a single warrior
loaded at explicit address `A < core_size` with program length
`≤ core_size`, the snapshot taken immediately after loading tags the
start PC `A` with `1 + 10 = 11`, tags every other footprint cell
`(A+j) mod core_size` with 1 exactly when its content differs from the
sentinel in opcode, `a_value` or `b_value` (address modes are
ignored), and tags every remaining cell 0. -/
theorem c5_snapshot (cs mc mp ml : Nat) (nm au : String) (prog : List Instruction) (A : Nat)
    (hcs : 0 < cs) (hA : A < cs) (hL : prog.length ≤ cs) :
    (getMemoryState (loadWarrior (MARS.init cs mc mp ml) nm au prog A)).length = cs ∧
    (getMemoryState (loadWarrior (MARS.init cs mc mp ml) nm au prog A)).getD A 0 = 11 ∧
    (∀ j, j < prog.length → (A + j) % cs ≠ A →
      (getMemoryState (loadWarrior (MARS.init cs mc mp ml) nm au prog A)).getD
          ((A + j) % cs) 0
        = if cellMarked (prog.getD j initialDat) then 1 else 0) ∧
    (∀ addr, addr ≠ A → (∀ j, j < prog.length → addr ≠ (A + j) % cs) →
      (getMemoryState (loadWarrior (MARS.init cs mc mp ml) nm au prog A)).getD addr 0 = 0) := by
  have hrw := getMemoryState_singleton (loadWarrior (MARS.init cs mc mp ml) nm au prog A)
    { name := nm, author := au
      program := (List.range prog.length).map (fun i => (MARS.init cs mc mp ml).heap.length + i)
      processes := [A], start_address := A } A rfl rfl
  simp only [List.length_map, List.length_range] at hrw
  have hcseq : (loadWarrior (MARS.init cs mc mp ml) nm au prog A).core_size = cs := rfl
  rw [hcseq] at hrw
  have hbase_len :
      (tagCells (loadWarrior (MARS.init cs mc mp ml) nm au prog A) 1 A 0 prog.length
        (List.replicate cs 0)).length = cs := by
    rw [tagCells_length, List.length_replicate]
  have hinst : ∀ j, j < prog.length →
      (loadWarrior (MARS.init cs mc mp ml) nm au prog A).instAt ((A + j) % cs)
        = prog.getD j initialDat := by
    intro j hj
    have hc2 : (MARS.init cs mc mp ml).core_size = cs := rfl
    have := loadWarrior_instAt_hit (MARS.init cs mc mp ml) nm au prog A
      hcs (by simp [MARS.init]) hL j hj
    rw [hc2] at this
    exact this
  refine ⟨?_, ?_, ?_, ?_⟩
  · rw [hrw, List.length_set, tagCells_length, List.length_replicate]
  · rw [hrw, getD_set_self _ _ _ _ (by rw [hbase_len]; exact hA)]
  · intro j hj hne
    rw [hrw, getD_set_ne _ _ _ _ _ (fun e => hne e.symm)]
    by_cases hm : cellMarked (prog.getD j initialDat)
    · rw [if_pos hm]
      apply tagCells_hit _ _ _ _ (by rw [hinst j hj]; exact hm) prog.length 0 _ ?hlt ?hex
      case hlt =>
        rw [List.length_replicate]
        exact Nat.mod_lt _ hcs
      case hex =>
        refine ⟨j, hj, ?_⟩
        rw [Nat.zero_add]
        rfl
    · rw [if_neg hm]
      rw [tagCells_clean _ _ _ _ (by rw [hinst j hj]; exact hm)]
      exact getD_replicate _ _ _
  · intro addr hneA hmiss
    rw [hrw, getD_set_ne _ _ _ _ _ (fun e => hneA e.symm)]
    rw [tagCells_miss _ _ _ addr prog.length 0 _ ?h]
    case h =>
      intro i hi
      rw [Nat.zero_add]
      exact hmiss i hi
    exact getD_replicate _ _ _

theorem c5_snapshot_witness :
    (getMemoryState (loadWarrior (MARS.init 8 10 8 100) "Imp" "a" impProg 3)).length = 8 ∧
    (getMemoryState (loadWarrior (MARS.init 8 10 8 100) "Imp" "a" impProg 3)).getD 3 0 = 11 ∧
    (∀ j, j < impProg.length → (3 + j) % 8 ≠ 3 →
      (getMemoryState (loadWarrior (MARS.init 8 10 8 100) "Imp" "a" impProg 3)).getD
          ((3 + j) % 8) 0
        = if cellMarked (impProg.getD j initialDat) then 1 else 0) ∧
    (∀ addr, addr ≠ 3 → (∀ j, j < impProg.length → addr ≠ (3 + j) % 8) →
      (getMemoryState (loadWarrior (MARS.init 8 10 8 100) "Imp" "a" impProg 3)).getD addr 0
        = 0) :=
  c5_snapshot 8 10 8 100 "Imp" "a" impProg 3 (by decide) (by decide) (by decide)
